import Mathlib

/-!
Verification of the filename-sanitization core of the repository
(`src/audio_pipeline.py`): `sanitize_filename_for_supabase` and its helper
`_sanitize_part`, shallowly embedded over `List Char`.
-/

set_option maxRecDepth 8192

namespace AudioPipeline

/-- The character class `[a-zA-Z0-9._-]` kept by the
`re.sub(r'[^a-zA-Z0-9._-]', '_', ...)` step of `_sanitize_part`. -/
def safeChar (c : Char) : Bool :=
  (decide ('a' ≤ c) && decide (c ≤ 'z')) ||
  (decide ('A' ≤ c) && decide (c ≤ 'Z')) ||
  (decide ('0' ≤ c) && decide (c ≤ '9')) ||
  c == '.' || c == '_' || c == '-'

/-- The fixed `vietnamese_map` substitutions of `_sanitize_part`
(`Đ/đ → D/d`, `Ď/ď → D/d`).  The four sequential `str.replace` calls of the
source amount to this single per-character map because no value of the table
is itself a key of the table. -/
def vietnameseMap (c : Char) : Char :=
  if c = 'Đ' then 'D'
  else if c = 'đ' then 'd'
  else if c = 'Ď' then 'D'
  else if c = 'ď' then 'd'
  else c

/-- Modelled from the Unicode character database backing Python's
`unicodedata.normalize('NFD', ...)` (a library external to this repository):
the full canonical decomposition of one code point, tabulated for the
non-ASCII characters exercised in this development; every other code point
(in particular every ASCII character) decomposes to itself.  Canonical
reordering never applies to the strings considered here, so decomposing code
point by code point agrees with the library on them. -/
def nfdChar (c : Char) : List Char :=
  if c = 'á' then ['a', Char.ofNat 0x301]
  else if c = 'à' then ['a', Char.ofNat 0x300]
  else if c = 'ả' then ['a', Char.ofNat 0x309]
  else if c = 'ã' then ['a', Char.ofNat 0x303]
  else if c = 'ạ' then ['a', Char.ofNat 0x323]
  else if c = 'ứ' then ['u', Char.ofNat 0x31B, Char.ofNat 0x301]
  else [c]

/-- Modelled from the Unicode character database backing Python's
`unicodedata.category(c) == 'Mn'` test (external to this repository):
the non-spacing combining marks appearing in this development; every other
code point is not of category Mn. -/
def isMn (c : Char) : Bool :=
  c == Char.ofNat 0x300 || c == Char.ofNat 0x301 || c == Char.ofNat 0x303 ||
  c == Char.ofNat 0x309 || c == Char.ofNat 0x31B || c == Char.ofNat 0x323

/-- The characters removed from the two ends by `strip('_.')`. -/
def isUD (c : Char) : Bool :=
  c == '_' || c == '.'

/-- `re.sub(r'[^a-zA-Z0-9._-]', '_', s)`. -/
def replaceSpecial (l : List Char) : List Char :=
  l.map (fun c => if safeChar c then c else '_')

/-- Collapse every run of two or more consecutive occurrences of `t` into a
single occurrence: `re.sub(r'_+', '_', s)` for `t = '_'` and the final
`re.sub(r'/+', '/', result)` for `t = '/'`. -/
def collapseRuns (t : Char) : List Char → List Char
  | [] => []
  | [c] => [c]
  | a :: b :: rest =>
    if a = t ∧ b = t then collapseRuns t (b :: rest)
    else a :: collapseRuns t (b :: rest)

/-- `s.strip('_.')`: repeatedly remove leading and trailing `_` and `.`. -/
def stripUD (l : List Char) : List Char :=
  ((l.dropWhile isUD).reverse.dropWhile isUD).reverse

/-- `_sanitize_part` from `src/audio_pipeline.py`: special-case Vietnamese
substitutions, NFD decomposition, removal of the combining marks, the
character-class substitution, underscore-run collapsing, and the final
`strip('_.')`. -/
def sanitize_part (part : List Char) : List Char :=
  if part = [] then []
  else stripUD (collapseRuns '_' (replaceSpecial
    (((part.map vietnameseMap).map nfdChar).flatten.filter (fun c => !isMn c))))

/-- Python's `filename.split('/')` on a character list (keeps empty pieces,
`[] ↦ [[]]`). -/
def splitOnSlash : List Char → List (List Char)
  | [] => [[]]
  | c :: rest =>
    if c = '/' then [] :: splitOnSlash rest
    else
      match splitOnSlash rest with
      | [] => [[c]]
      | p :: ps => (c :: p) :: ps

/-- `part.rsplit('.', 1)[1]`: the substring after the last dot
(the whole string when no dot occurs). -/
def extAfterLastDot (part : List Char) : List Char :=
  (part.reverse.takeWhile (fun c => !(c == '.'))).reverse

/-- `part.rsplit('.', 1)[0]`: the substring before the last dot. -/
def nameBeforeLastDot (part : List Char) : List Char :=
  ((part.reverse.dropWhile (fun c => !(c == '.'))).tail).reverse

/-- The `has_extension` test of `sanitize_filename_for_supabase`: the part
contains a dot, does not start or end with a dot, and the substring after
the last dot is non-empty. -/
def hasExtension (part : List Char) : Bool :=
  part.contains '.' &&
  !(part.head? == some '.') &&
  !(part.getLast? == some '.') &&
  !(extAfterLastDot part).isEmpty

/-- Handling of the final component of the raw split: split off the
extension when `has_extension` holds, sanitize only the name, fall back to
the stem `file` when the name sanitizes away, and pass the extension through
unchanged. -/
def processExtPart (part : List Char) : List Char :=
  if hasExtension part then
    let processedName := sanitize_part (nameBeforeLastDot part)
    if processedName = [] then 'f' :: 'i' :: 'l' :: 'e' :: '.' :: extAfterLastDot part
    else processedName ++ '.' :: extAfterLastDot part
  else sanitize_part part

/-- Handling of a non-final component of the raw split: skip empty
components, sanitize, and drop the component when the result is empty. -/
def plainPart (part : List Char) : Option (List Char) :=
  if part = [] then none
  else if sanitize_part part = [] then none
  else some (sanitize_part part)

/-- The per-component loop of `sanitize_filename_for_supabase`; `is_last`
holds exactly for the final component of the raw split (empty or not). -/
def processParts : List (List Char) → List (List Char)
  | [] => []
  | [part] =>
    if part = [] then []
    else if processExtPart part = [] then []
    else [processExtPart part]
  | part :: p2 :: rest => (plainPart part).toList ++ processParts (p2 :: rest)

/-- `'/'.join(parts)`. -/
def joinSlash : List (List Char) → List Char
  | [] => []
  | [p] => p
  | p :: q :: qs => p ++ '/' :: joinSlash (q :: qs)

/-- `sanitize_filename_for_supabase` from `src/audio_pipeline.py`. -/
def sanitize_filename_for_supabase (filename : List Char) : List Char :=
  if filename = [] then []
  else collapseRuns '/' (joinSlash (processParts (splitOnSlash filename)))

/-- Two adjacent occurrences of `t` appear somewhere in the list. -/
def hasRun (t : Char) : List Char → Bool
  | [] => false
  | a :: rest => (a == t && rest.head? == some t) || hasRun t rest

/-- The first character exists and is `_` or `.`. -/
def startsUD (seg : List Char) : Bool :=
  match seg.head? with
  | some a => isUD a
  | none => false

/-- The last character exists and is `_` or `.`. -/
def endsUD (seg : List Char) : Bool :=
  match seg.getLast? with
  | some a => isUD a
  | none => false

/-- The invariant shape of a `_sanitize_part` result: only safe characters,
no run of underscores, and neither end is `_` or `.`. -/
def sanitizedShape (q : List Char) : Bool :=
  q.all safeChar && !hasRun '_' q && !startsUD q && !endsUD q

/-! ### Basic lemmas about the split, the join, and run collapsing -/

theorem splitOnSlash_ne_nil (l : List Char) : splitOnSlash l ≠ [] := by
  induction l with
  | nil => simp [splitOnSlash]
  | cons c rest ih =>
    rw [splitOnSlash]
    split
    · exact List.cons_ne_nil _ _
    · split
      · exact List.cons_ne_nil _ _
      · exact List.cons_ne_nil _ _

theorem not_slash_mem_splitOnSlash (l : List Char) :
    ∀ p ∈ splitOnSlash l, ('/' : Char) ∉ p := by
  induction l with
  | nil =>
    intro p hp
    simp only [splitOnSlash, List.mem_singleton] at hp
    subst hp; simp
  | cons c rest ih =>
    intro p hp
    rw [splitOnSlash] at hp
    by_cases hc : c = '/'
    · rw [if_pos hc] at hp
      rcases List.mem_cons.mp hp with h | h
      · subst h; simp
      · exact ih p h
    · rw [if_neg hc] at hp
      cases hsp : splitOnSlash rest with
      | nil => exact absurd hsp (splitOnSlash_ne_nil rest)
      | cons q qs =>
        rw [hsp] at hp
        rcases List.mem_cons.mp hp with h | h
        · subst h
          intro hmem
          rcases List.mem_cons.mp hmem with h | h
          · exact hc h.symm
          · exact ih q (hsp ▸ List.mem_cons_self q qs) h
        · exact ih p (hsp ▸ List.mem_cons_of_mem q h)

theorem splitOnSlash_append_slash (l : List Char) :
    splitOnSlash (l ++ ['/']) = splitOnSlash l ++ [[]] := by
  induction l with
  | nil => simp [splitOnSlash]
  | cons c rest ih =>
    have hstep : (c :: rest) ++ ['/'] = c :: (rest ++ ['/']) := rfl
    rw [hstep, splitOnSlash, splitOnSlash]
    by_cases hc : c = '/'
    · rw [if_pos hc, if_pos hc, ih]
      rfl
    · rw [if_neg hc, if_neg hc, ih]
      cases hsp : splitOnSlash rest with
      | nil => exact absurd hsp (splitOnSlash_ne_nil rest)
      | cons q qs => simp

theorem collapseRuns_ne_nil (t : Char) (l : List Char) (h : l ≠ []) :
    collapseRuns t l ≠ [] := by
  induction l with
  | nil => exact absurd rfl h
  | cons a rest ih =>
    cases rest with
    | nil => simp [collapseRuns]
    | cons b rest' =>
      rw [collapseRuns]
      split
      · exact ih (List.cons_ne_nil _ _)
      · exact List.cons_ne_nil _ _

theorem head?_collapseRuns (t : Char) (l : List Char) :
    (collapseRuns t l).head? = l.head? := by
  induction l with
  | nil => rfl
  | cons a rest ih =>
    cases rest with
    | nil => rfl
    | cons b rest' =>
      rw [collapseRuns]
      split
      · rename_i hab
        rw [ih, List.head?_cons, List.head?_cons, hab.1, hab.2]
      · rfl

theorem getLast?_collapseRuns (t : Char) (l : List Char) :
    (collapseRuns t l).getLast? = l.getLast? := by
  induction l with
  | nil => rfl
  | cons a rest ih =>
    cases rest with
    | nil => rfl
    | cons b rest' =>
      rw [collapseRuns]
      split
      · rw [ih, List.getLast?_cons_cons]
      · rw [List.getLast?_cons_cons, ← ih]
        cases hcl : collapseRuns t (b :: rest') with
        | nil => exact absurd hcl (collapseRuns_ne_nil t _ (List.cons_ne_nil _ _))
        | cons x xs => rw [List.getLast?_cons_cons]

theorem mem_collapseRuns (t : Char) (l : List Char) :
    ∀ c ∈ collapseRuns t l, c ∈ l := by
  induction l with
  | nil => intro c hc; exact absurd hc (by simp [collapseRuns])
  | cons a rest ih =>
    intro c hc
    cases rest with
    | nil => exact hc
    | cons b rest' =>
      rw [collapseRuns] at hc
      split at hc
      · exact List.mem_cons_of_mem a (ih c hc)
      · rcases List.mem_cons.mp hc with h | h
        · exact h ▸ List.mem_cons_self _ _
        · exact List.mem_cons_of_mem a (ih c h)

theorem hasRun_collapseRuns (t : Char) (l : List Char) :
    hasRun t (collapseRuns t l) = false := by
  induction l with
  | nil => rfl
  | cons a rest ih =>
    cases rest with
    | nil => simp [collapseRuns, hasRun]
    | cons b rest' =>
      rw [collapseRuns]
      split
      · exact ih
      · rename_i hab
        rw [hasRun, ih, head?_collapseRuns, Bool.or_false]
        rw [List.head?_cons]
        by_cases ha : a = t
        · have hb : ¬ b = t := fun hb => hab ⟨ha, hb⟩
          simp [hb]
        · simp [ha]

theorem collapseRuns_eq_self (t : Char) (l : List Char) (h : hasRun t l = false) :
    collapseRuns t l = l := by
  induction l with
  | nil => rfl
  | cons a rest ih =>
    cases rest with
    | nil => rfl
    | cons b rest' =>
      rw [hasRun, Bool.or_eq_false_iff] at h
      rw [collapseRuns]
      split
      · rename_i hab
        exfalso
        have : (a == t && (b :: rest').head? == some t) = true := by
          simp [hab.1, hab.2]
        rw [h.1] at this
        exact Bool.false_ne_true this
      · rw [ih h.2]

theorem hasRun_eq_false_of_not_mem (t : Char) (l : List Char) (h : t ∉ l) :
    hasRun t l = false := by
  induction l with
  | nil => rfl
  | cons a rest ih =>
    rw [hasRun, Bool.or_eq_false_iff]
    constructor
    · have ha : ¬ a = t := fun hat => h (hat ▸ List.mem_cons_self _ _)
      simp [ha]
    · exact ih (fun hm => h (List.mem_cons_of_mem a hm))

theorem hasRun_append (t : Char) (xs ys : List Char) :
    hasRun t (xs ++ ys) = true ↔
      hasRun t xs = true ∨ hasRun t ys = true ∨
        (xs.getLast? = some t ∧ ys.head? = some t) := by
  induction xs with
  | nil => simp [hasRun]
  | cons a rest ih =>
    cases rest with
    | nil =>
      simp only [List.singleton_append, hasRun, List.getLast?_singleton]
      cases ys with
      | nil => simp [hasRun]
      | cons y ys' =>
        simp only [List.head?_cons, hasRun]
        constructor
        · intro h
          rcases Bool.or_eq_true_iff.mp h with h | h
          · rcases Bool.and_eq_true_iff.mp h with ⟨h1, h2⟩
            refine Or.inr (Or.inr ⟨?_, ?_⟩)
            · simpa using h1
            · simpa using h2
          · exact Or.inr (Or.inl h)
        · intro h
          rcases h with h | h | ⟨h1, h2⟩
          · exact absurd h (by simp [hasRun])
          · simp [h]
          · simp only [Option.some.injEq] at h1 h2
            simp [h1, h2]
    | cons b rest' =>
      simp only [List.cons_append, hasRun, List.getLast?_cons_cons] at *
      constructor
      · intro h
        rcases Bool.or_eq_true_iff.mp h with h | h
        · rcases Bool.and_eq_true_iff.mp h with ⟨h1, h2⟩
          refine Or.inl (Bool.or_eq_true_iff.mpr (Or.inl ?_))
          simp only [List.cons_append, List.head?_cons] at h2 ⊢
          exact Bool.and_eq_true_iff.mpr ⟨h1, by simpa using h2⟩
        · rcases ih.mp h with h | h | h
          · exact Or.inl (Bool.or_eq_true_iff.mpr (Or.inr h))
          · exact Or.inr (Or.inl h)
          · exact Or.inr (Or.inr h)
      · intro h
        rcases h with h | h | h
        · rcases Bool.or_eq_true_iff.mp h with h | h
          · rcases Bool.and_eq_true_iff.mp h with ⟨h1, h2⟩
            refine Bool.or_eq_true_iff.mpr (Or.inl ?_)
            simp only [List.head?_cons] at h2 ⊢
            exact Bool.and_eq_true_iff.mpr ⟨h1, by simpa using h2⟩
          · exact Bool.or_eq_true_iff.mpr (Or.inr (ih.mpr (Or.inl h)))
        · exact Bool.or_eq_true_iff.mpr (Or.inr (ih.mpr (Or.inr (Or.inl h))))
        · exact Bool.or_eq_true_iff.mpr (Or.inr (ih.mpr (Or.inr (Or.inr h))))

theorem mem_joinSlash (ps : List (List Char)) :
    ∀ c ∈ joinSlash ps, c = '/' ∨ ∃ p ∈ ps, c ∈ p := by
  induction ps with
  | nil =>
    intro c hc
    exact absurd hc (by simp [joinSlash])
  | cons p rest ih =>
    cases rest with
    | nil =>
      intro c hc
      exact Or.inr ⟨p, List.mem_singleton_self p, hc⟩
    | cons q qs =>
      intro c hc
      rw [joinSlash] at hc
      rcases List.mem_append.mp hc with h | h
      · exact Or.inr ⟨p, List.mem_cons_self _ _, h⟩
      · rcases List.mem_cons.mp h with h | h
        · exact Or.inl h
        · rcases ih c h with h | ⟨r, hr, hcr⟩
          · exact Or.inl h
          · exact Or.inr ⟨r, List.mem_cons_of_mem p hr, hcr⟩

theorem joinSlash_ne_nil (ps : List (List Char)) (hne : ps ≠ [])
    (h1 : ∀ p ∈ ps, p ≠ []) : joinSlash ps ≠ [] := by
  cases ps with
  | nil => exact absurd rfl hne
  | cons p rest =>
    cases rest with
    | nil => exact h1 p (List.mem_singleton_self p)
    | cons q qs =>
      rw [joinSlash]
      simp

theorem head?_joinSlash_ne_slash (ps : List (List Char))
    (h1 : ∀ p ∈ ps, p ≠ []) (h2 : ∀ p ∈ ps, ('/' : Char) ∉ p) :
    (joinSlash ps).head? ≠ some '/' := by
  cases ps with
  | nil => simp [joinSlash]
  | cons p rest =>
    cases p with
    | nil => exact absurd rfl (h1 [] (List.mem_cons_self _ _))
    | cons a p' =>
      have ha : a ≠ '/' := by
        intro h
        exact h2 (a :: p') (List.mem_cons_self _ _) (h ▸ List.mem_cons_self _ _)
      cases rest with
      | nil =>
        intro heq
        rw [joinSlash] at heq
        simp only [List.head?_cons, Option.some.injEq] at heq
        exact ha heq
      | cons q qs =>
        intro heq
        rw [joinSlash] at heq
        simp only [List.cons_append, List.head?_cons, Option.some.injEq] at heq
        exact ha heq

theorem getLast?_joinSlash_ne_slash (ps : List (List Char))
    (h1 : ∀ p ∈ ps, p ≠ []) (h2 : ∀ p ∈ ps, ('/' : Char) ∉ p) :
    (joinSlash ps).getLast? ≠ some '/' := by
  induction ps with
  | nil => simp [joinSlash]
  | cons p rest ih =>
    cases rest with
    | nil =>
      intro heq
      exact h2 p (List.mem_singleton_self p) (List.mem_of_getLast?_eq_some heq)
    | cons q qs =>
      intro heq
      rw [joinSlash] at heq
      have hqne : joinSlash (q :: qs) ≠ [] :=
        joinSlash_ne_nil _ (List.cons_ne_nil _ _)
          (fun r hr => h1 r (List.mem_cons_of_mem p hr))
      rw [List.getLast?_append] at heq
      have hcons : ('/' :: joinSlash (q :: qs)).getLast? = (joinSlash (q :: qs)).getLast? := by
        rw [List.getLast?_cons]
        cases hj : (joinSlash (q :: qs)).getLast? with
        | none => exact absurd (List.getLast?_eq_none_iff.mp hj) hqne
        | some x => rfl
      rw [hcons] at heq
      cases hj : (joinSlash (q :: qs)).getLast? with
      | none => exact absurd (List.getLast?_eq_none_iff.mp hj) hqne
      | some x =>
        rw [hj] at heq
        simp only [Option.or_some, Option.some.injEq] at heq
        subst heq
        exact ih (fun r hr => h1 r (List.mem_cons_of_mem p hr))
          (fun r hr => h2 r (List.mem_cons_of_mem p hr)) hj

theorem hasRun_slash_joinSlash (ps : List (List Char))
    (h1 : ∀ p ∈ ps, p ≠ []) (h2 : ∀ p ∈ ps, ('/' : Char) ∉ p) :
    hasRun '/' (joinSlash ps) = false := by
  induction ps with
  | nil => rfl
  | cons p rest ih =>
    cases rest with
    | nil => exact hasRun_eq_false_of_not_mem _ _ (h2 p (List.mem_singleton_self p))
    | cons q qs =>
      rw [joinSlash]
      apply Bool.eq_false_iff.mpr
      intro htrue
      have h1' : ∀ r ∈ q :: qs, r ≠ [] := fun r hr => h1 r (List.mem_cons_of_mem p hr)
      have h2' : ∀ r ∈ q :: qs, ('/' : Char) ∉ r := fun r hr => h2 r (List.mem_cons_of_mem p hr)
      rcases (hasRun_append '/' p ('/' :: joinSlash (q :: qs))).mp htrue with h | h | ⟨hl, _⟩
      · rw [hasRun_eq_false_of_not_mem _ _ (h2 p (List.mem_cons_self _ _))] at h
        exact Bool.false_ne_true h
      · rw [hasRun] at h
        rcases Bool.or_eq_true_iff.mp h with h | h
        · rcases Bool.and_eq_true_iff.mp h with ⟨_, hhd⟩
          exact head?_joinSlash_ne_slash _ h1' h2' (by simpa using hhd)
        · rw [ih h1' h2'] at h
          exact Bool.false_ne_true h
      · exact h2 p (List.mem_cons_self _ _) (List.mem_of_getLast?_eq_some hl)

theorem splitOnSlash_append_no_slash (p : List Char) (hp : ('/' : Char) ∉ p)
    (l : List Char) :
    splitOnSlash (p ++ l) = (p ++ (splitOnSlash l).headI) :: (splitOnSlash l).tail := by
  induction p with
  | nil =>
    cases hsp : splitOnSlash l with
    | nil => exact absurd hsp (splitOnSlash_ne_nil l)
    | cons q qs => simp [hsp]
  | cons c p' ih =>
    have hc : ¬ c = '/' := fun h => hp (h ▸ List.mem_cons_self _ _)
    have hp' : ('/' : Char) ∉ p' := fun h => hp (List.mem_cons_of_mem c h)
    have hstep : (c :: p') ++ l = c :: (p' ++ l) := rfl
    rw [hstep, splitOnSlash, if_neg hc, ih hp']
    rfl

theorem splitOnSlash_joinSlash (ps : List (List Char)) (hne : ps ≠ [])
    (hsf : ∀ p ∈ ps, ('/' : Char) ∉ p) :
    splitOnSlash (joinSlash ps) = ps := by
  induction ps with
  | nil => exact absurd rfl hne
  | cons p rest ih =>
    cases rest with
    | nil =>
      have h := splitOnSlash_append_no_slash p (hsf p (List.mem_singleton_self p)) []
      simpa [splitOnSlash, joinSlash] using h
    | cons q qs =>
      have hih := ih (List.cons_ne_nil _ _) (fun r hr => hsf r (List.mem_cons_of_mem p hr))
      rw [joinSlash,
        splitOnSlash_append_no_slash p (hsf p (List.mem_cons_self _ _)) _]
      have hsplit : splitOnSlash ('/' :: joinSlash (q :: qs)) =
          [] :: splitOnSlash (joinSlash (q :: qs)) := by
        rw [splitOnSlash]
        simp
      rw [hsplit, hih]
      simp

/-! ### The shape of `_sanitize_part` results -/

theorem getLast?_of_suffix {α : Type} {x l : List α} (h : x <:+ l) (hx : x ≠ []) :
    x.getLast? = l.getLast? := by
  obtain ⟨u, rfl⟩ := h
  rw [List.getLast?_append]
  cases hg : x.getLast? with
  | none => exact absurd (List.getLast?_eq_none_iff.mp hg) hx
  | some a => rfl

theorem getLast?_append_ne_nil {α : Type} (u v : List α) (hv : v ≠ []) :
    (u ++ v).getLast? = v.getLast? :=
  (getLast?_of_suffix ⟨u, rfl⟩ hv).symm

theorem mem_stripUD (l : List Char) : ∀ c ∈ stripUD l, c ∈ l := by
  intro c hc
  rw [stripUD, List.mem_reverse] at hc
  have hc1 : c ∈ (l.dropWhile isUD).reverse :=
    (List.dropWhile_sublist _).subset hc
  rw [List.mem_reverse] at hc1
  exact (List.dropWhile_sublist _).subset hc1

theorem head?_stripUD (l : List Char) (a : Char) (ha : (stripUD l).head? = some a) :
    isUD a = false := by
  rw [stripUD, List.head?_reverse] at ha
  have hx : ((l.dropWhile isUD).reverse.dropWhile isUD) ≠ [] := by
    intro h
    rw [h] at ha
    exact Option.noConfusion ha
  rw [getLast?_of_suffix (List.dropWhile_suffix _) hx, List.getLast?_reverse] at ha
  have hd := List.head?_dropWhile_not isUD l
  rw [ha] at hd
  exact hd

theorem getLast?_stripUD (l : List Char) (a : Char) (ha : (stripUD l).getLast? = some a) :
    isUD a = false := by
  rw [stripUD, List.getLast?_reverse] at ha
  have hd := List.head?_dropWhile_not isUD (l.dropWhile isUD).reverse
  rw [ha] at hd
  exact hd

theorem hasRun_false_append_left (t : Char) (xs ys : List Char)
    (h : hasRun t (xs ++ ys) = false) : hasRun t xs = false := by
  apply Bool.eq_false_iff.mpr
  intro hx
  have := (hasRun_append t xs ys).mpr (Or.inl hx)
  rw [h] at this
  exact Bool.false_ne_true this

theorem hasRun_false_append_right (t : Char) (xs ys : List Char)
    (h : hasRun t (xs ++ ys) = false) : hasRun t ys = false := by
  apply Bool.eq_false_iff.mpr
  intro hy
  have := (hasRun_append t xs ys).mpr (Or.inr (Or.inl hy))
  rw [h] at this
  exact Bool.false_ne_true this

theorem hasRun_stripUD (t : Char) (l : List Char) (h : hasRun t l = false) :
    hasRun t (stripUD l) = false := by
  obtain ⟨u, hu⟩ := List.dropWhile_suffix (l := l) (p := isUD)
  have hd1 : hasRun t (l.dropWhile isUD) = false := by
    rw [← hu] at h
    exact hasRun_false_append_right t u _ h
  obtain ⟨v, hv⟩ := List.dropWhile_suffix (l := (l.dropWhile isUD).reverse) (p := isUD)
  have hd2 : l.dropWhile isUD =
      ((l.dropWhile isUD).reverse.dropWhile isUD).reverse ++ v.reverse := by
    have := congrArg List.reverse hv
    simpa [List.reverse_append] using this.symm
  rw [hd2] at hd1
  exact hasRun_false_append_left t _ _ hd1

theorem safeChar_mem_replaceSpecial (l : List Char) :
    ∀ c ∈ replaceSpecial l, safeChar c = true := by
  intro c hc
  rw [replaceSpecial] at hc
  obtain ⟨a, _, rfl⟩ := List.mem_map.mp hc
  by_cases h : safeChar a = true
  · rw [if_pos h]
    exact h
  · rw [if_neg h]
    decide

theorem vietnameseMap_safe (c : Char) (h : safeChar c = true) : vietnameseMap c = c := by
  rw [vietnameseMap]
  split_ifs with h1 h2 h3 h4
  · subst h1; exact absurd h (by decide)
  · subst h2; exact absurd h (by decide)
  · subst h3; exact absurd h (by decide)
  · subst h4; exact absurd h (by decide)
  · rfl

theorem nfdChar_safe (c : Char) (h : safeChar c = true) : nfdChar c = [c] := by
  rw [nfdChar]
  split_ifs with h1 h2 h3 h4 h5 h6
  · subst h1; exact absurd h (by decide)
  · subst h2; exact absurd h (by decide)
  · subst h3; exact absurd h (by decide)
  · subst h4; exact absurd h (by decide)
  · subst h5; exact absurd h (by decide)
  · subst h6; exact absurd h (by decide)
  · rfl

theorem isMn_safe (c : Char) (h : safeChar c = true) : isMn c = false := by
  apply Bool.eq_false_iff.mpr
  intro ht
  rw [isMn] at ht
  simp only [Bool.or_eq_true, beq_iff_eq] at ht
  rcases ht with ((((h1 | h1) | h1) | h1) | h1) | h1 <;> (subst h1; exact absurd h (by decide))

theorem map_vietnameseMap_of_safe (l : List Char) (h : ∀ c ∈ l, safeChar c = true) :
    l.map vietnameseMap = l := by
  induction l with
  | nil => rfl
  | cons a rest ih =>
    rw [List.map_cons, vietnameseMap_safe a (h a (List.mem_cons_self _ _)),
      ih (fun c hc => h c (List.mem_cons_of_mem a hc))]

theorem flatten_map_nfdChar_of_safe (l : List Char) (h : ∀ c ∈ l, safeChar c = true) :
    (l.map nfdChar).flatten = l := by
  induction l with
  | nil => rfl
  | cons a rest ih =>
    rw [List.map_cons, List.flatten_cons, nfdChar_safe a (h a (List.mem_cons_self _ _)),
      ih (fun c hc => h c (List.mem_cons_of_mem a hc))]
    rfl

theorem filter_isMn_of_safe (l : List Char) (h : ∀ c ∈ l, safeChar c = true) :
    l.filter (fun c => !isMn c) = l := by
  induction l with
  | nil => rfl
  | cons a rest ih =>
    rw [List.filter_cons]
    rw [isMn_safe a (h a (List.mem_cons_self _ _))]
    simp only [Bool.not_false, if_pos]
    rw [ih (fun c hc => h c (List.mem_cons_of_mem a hc))]

theorem replaceSpecial_of_safe (l : List Char) (h : ∀ c ∈ l, safeChar c = true) :
    replaceSpecial l = l := by
  induction l with
  | nil => rfl
  | cons a rest ih =>
    rw [replaceSpecial, List.map_cons, if_pos (h a (List.mem_cons_self _ _))]
    have := ih (fun c hc => h c (List.mem_cons_of_mem a hc))
    rw [replaceSpecial] at this
    rw [this]

theorem dropWhile_eq_self_of_head (l : List Char) (p : Char → Bool)
    (h : ∀ a, l.head? = some a → p a = false) : l.dropWhile p = l := by
  cases l with
  | nil => rfl
  | cons a rest =>
    rw [List.dropWhile_cons_of_neg]
    rw [h a rfl]
    exact Bool.false_ne_true

theorem stripUD_eq_self (l : List Char) (hh : startsUD l = false)
    (hl : endsUD l = false) : stripUD l = l := by
  rw [stripUD]
  have h1 : l.dropWhile isUD = l := by
    apply dropWhile_eq_self_of_head
    intro a ha
    unfold startsUD at hh
    rw [ha] at hh
    exact hh
  rw [h1]
  have h2 : l.reverse.dropWhile isUD = l.reverse := by
    apply dropWhile_eq_self_of_head
    intro a ha
    rw [List.head?_reverse] at ha
    unfold endsUD at hl
    rw [ha] at hl
    exact hl
  rw [h2, List.reverse_reverse]

theorem sanitize_part_all_safe (p : List Char) :
    ∀ c ∈ sanitize_part p, safeChar c = true := by
  intro c hc
  rw [sanitize_part] at hc
  by_cases hp : p = []
  · rw [if_pos hp] at hc
    exact absurd hc (List.not_mem_nil c)
  · rw [if_neg hp] at hc
    exact safeChar_mem_replaceSpecial _ c
      (mem_collapseRuns _ _ c (mem_stripUD _ c hc))

theorem sanitize_part_shape (p : List Char) : sanitizedShape (sanitize_part p) = true := by
  by_cases hp : p = []
  · rw [sanitize_part, if_pos hp]
    decide
  · rw [sanitizedShape]
    refine Bool.and_eq_true_iff.mpr ⟨Bool.and_eq_true_iff.mpr
      ⟨Bool.and_eq_true_iff.mpr ⟨?_, ?_⟩, ?_⟩, ?_⟩
    · exact List.all_eq_true.mpr (fun c hc => sanitize_part_all_safe p c hc)
    · rw [sanitize_part, if_neg hp]
      rw [Bool.not_eq_true']
      exact hasRun_stripUD _ _ (hasRun_collapseRuns _ _)
    · rw [Bool.not_eq_true']
      unfold startsUD
      cases hhd : (sanitize_part p).head? with
      | none => rfl
      | some a =>
        rw [sanitize_part, if_neg hp] at hhd
        exact head?_stripUD _ a hhd
    · rw [Bool.not_eq_true']
      unfold endsUD
      cases hlast : (sanitize_part p).getLast? with
      | none => rfl
      | some a =>
        rw [sanitize_part, if_neg hp] at hlast
        exact getLast?_stripUD _ a hlast

theorem sanitizedShape_fix (q : List Char) (h : sanitizedShape q = true) :
    sanitize_part q = q := by
  by_cases hq : q = []
  · subst hq; rfl
  · rw [sanitizedShape] at h
    have h1 := Bool.and_eq_true_iff.mp h
    have h2 := Bool.and_eq_true_iff.mp h1.1
    have h3 := Bool.and_eq_true_iff.mp h2.1
    have hall := h3.1
    have hrun := h3.2
    have hst := h2.2
    have hen := h1.2
    have hsafe : ∀ c ∈ q, safeChar c = true := fun c hc => List.all_eq_true.mp hall c hc
    rw [Bool.not_eq_true'] at hrun hst hen
    rw [sanitize_part, if_neg hq, map_vietnameseMap_of_safe q hsafe,
      flatten_map_nfdChar_of_safe q hsafe, filter_isMn_of_safe q hsafe,
      replaceSpecial_of_safe q hsafe,
      collapseRuns_eq_self _ _ hrun,
      stripUD_eq_self q hst hen]

theorem sanitize_part_idem (p : List Char) :
    sanitize_part (sanitize_part p) = sanitize_part p :=
  sanitizedShape_fix _ (sanitize_part_shape p)

/-! ### Extension extraction and reassembly -/

theorem shape_all_safe (q : List Char) (h : sanitizedShape q = true) :
    ∀ c ∈ q, safeChar c = true := by
  rw [sanitizedShape] at h
  have h1 := Bool.and_eq_true_iff.mp h
  have h2 := Bool.and_eq_true_iff.mp h1.1
  have h3 := Bool.and_eq_true_iff.mp h2.1
  exact fun c hc => List.all_eq_true.mp h3.1 c hc

theorem shape_startsUD (q : List Char) (h : sanitizedShape q = true) :
    startsUD q = false := by
  rw [sanitizedShape] at h
  have h1 := Bool.and_eq_true_iff.mp h
  have h2 := (Bool.and_eq_true_iff.mp h1.1).2
  rw [Bool.not_eq_true'] at h2
  exact h2

theorem shape_endsUD (q : List Char) (h : sanitizedShape q = true) :
    endsUD q = false := by
  rw [sanitizedShape] at h
  have h1 := (Bool.and_eq_true_iff.mp h).2
  rw [Bool.not_eq_true'] at h1
  exact h1

theorem safe_ne_slash (c : Char) (h : safeChar c = true) : c ≠ '/' := by
  intro heq
  subst heq
  exact absurd h (by decide)

theorem safe_ne_dot_of_startsUD (q : List Char) (a : Char) (hst : startsUD q = false)
    (ha : q.head? = some a) : ¬ a = '.' := by
  intro heq
  unfold startsUD at hst
  rw [ha] at hst
  subst heq
  exact absurd hst (by decide)

theorem ext_no_dot (part : List Char) : ∀ c ∈ extAfterLastDot part, ¬ c = '.' := by
  intro c hc
  rw [extAfterLastDot, List.mem_reverse] at hc
  have hp := List.mem_takeWhile_imp hc
  intro heq
  subst heq
  exact absurd hp (by decide)

theorem ext_subset (part : List Char) : ∀ c ∈ extAfterLastDot part, c ∈ part := by
  intro c hc
  rw [extAfterLastDot, List.mem_reverse] at hc
  have h1 := (List.takeWhile_sublist _).subset hc
  rw [List.mem_reverse] at h1
  exact h1

theorem extAfterLastDot_reassemble (q ext : List Char)
    (hext : ∀ c ∈ ext, ¬ c = '.') :
    extAfterLastDot (q ++ '.' :: ext) = ext := by
  rw [extAfterLastDot, List.reverse_append]
  have h1 : ('.' :: ext).reverse = ext.reverse ++ ['.'] := by simp
  rw [h1, List.append_assoc, List.singleton_append]
  rw [List.takeWhile_append_of_pos]
  · rw [List.takeWhile_cons_of_neg]
    · simp
    · simp
  · intro a ha
    rw [List.mem_reverse] at ha
    simp [hext a ha]

theorem nameBeforeLastDot_reassemble (q ext : List Char)
    (hext : ∀ c ∈ ext, ¬ c = '.') :
    nameBeforeLastDot (q ++ '.' :: ext) = q := by
  rw [nameBeforeLastDot, List.reverse_append]
  have h1 : ('.' :: ext).reverse = ext.reverse ++ ['.'] := by simp
  rw [h1, List.append_assoc, List.singleton_append]
  rw [List.dropWhile_append_of_pos]
  · rw [List.dropWhile_cons_of_neg]
    · simp
    · simp
  · intro a ha
    rw [List.mem_reverse] at ha
    simp [hext a ha]

theorem dropWhile_ne_nil_of_mem {p : Char → Bool} {l : List Char} {a : Char}
    (ha : a ∈ l) (hpa : p a = false) : l.dropWhile p ≠ [] := by
  induction l with
  | nil => cases ha
  | cons x xs ih =>
    rw [List.dropWhile_cons]
    split
    · rename_i hx
      rcases List.mem_cons.mp ha with heq | hmem
      · subst heq
        rw [hpa] at hx
        exact absurd hx Bool.false_ne_true
      · exact ih hmem
    · exact List.cons_ne_nil _ _

theorem rsplit_eq (part : List Char) (h : ('.' : Char) ∈ part) :
    nameBeforeLastDot part ++ '.' :: extAfterLastDot part = part := by
  have hmem : ('.' : Char) ∈ part.reverse := List.mem_reverse.mpr h
  have hne : part.reverse.dropWhile (fun c => !(c == '.')) ≠ [] :=
    dropWhile_ne_nil_of_mem hmem (by decide)
  cases hd : (part.reverse.dropWhile (fun c => !(c == '.'))).head? with
  | none => exact absurd (List.head?_eq_none_iff.mp hd) hne
  | some x =>
    have hx := List.head?_dropWhile_not (fun c => !(c == '.')) part.reverse
    rw [hd] at hx
    have hxdot : x = '.' := by
      by_cases hxe : x = '.'
      · exact hxe
      · exfalso
        have hb : (x == '.') = false := beq_eq_false_iff_ne.mpr hxe
        have hx2 : (!(x == '.')) = false := hx
        rw [hb] at hx2
        exact absurd hx2 (by decide)
    subst hxdot
    obtain ⟨ys, hys⟩ := List.head?_eq_some_iff.mp hd
    have htail : (part.reverse.dropWhile (fun c => !(c == '.'))).tail = ys := by
      rw [hys]
      rfl
    rw [nameBeforeLastDot, extAfterLastDot, htail]
    have hsplit := List.takeWhile_append_dropWhile (fun c => !(c == '.')) part.reverse
    rw [hys] at hsplit
    have h2 := congrArg List.reverse hsplit
    rw [List.reverse_append, List.reverse_reverse, List.reverse_cons,
      List.append_assoc, List.singleton_append] at h2
    exact h2

theorem hasExtension_elim (part : List Char) (h : hasExtension part = true) :
    ('.' : Char) ∈ part ∧ part.head? ≠ some '.' ∧ part.getLast? ≠ some '.' ∧
      extAfterLastDot part ≠ [] := by
  rw [hasExtension] at h
  have h1 := Bool.and_eq_true_iff.mp h
  have h2 := Bool.and_eq_true_iff.mp h1.1
  have h3 := Bool.and_eq_true_iff.mp h2.1
  refine ⟨?_, ?_, ?_, ?_⟩
  · rcases List.contains_iff_exists_mem_beq.mp h3.1 with ⟨a, ha, hba⟩
    rw [show ('.' : Char) = a from eq_of_beq hba]
    exact ha
  · intro heq
    have hh := h3.2
    rw [Bool.not_eq_true', beq_eq_false_iff_ne] at hh
    exact hh heq
  · intro heq
    have hh := h2.2
    rw [Bool.not_eq_true', beq_eq_false_iff_ne] at hh
    exact hh heq
  · intro heq
    have hh := h1.2
    rw [Bool.not_eq_true'] at hh
    rw [heq] at hh
    exact absurd hh (by decide)

theorem hasExtension_reassemble (q ext : List Char) (hq : q ≠ [])
    (hqh : startsUD q = false) (hext : ext ≠ [])
    (hdot : ∀ c ∈ ext, ¬ c = '.') :
    hasExtension (q ++ '.' :: ext) = true := by
  rw [hasExtension]
  refine Bool.and_eq_true_iff.mpr ⟨Bool.and_eq_true_iff.mpr ⟨Bool.and_eq_true_iff.mpr
    ⟨?_, ?_⟩, ?_⟩, ?_⟩
  · apply List.contains_iff_exists_mem_beq.mpr
    exact ⟨'.', List.mem_append_right q (List.mem_cons_self _ _), by decide⟩
  · rw [Bool.not_eq_true', beq_eq_false_iff_ne]
    intro heq
    rw [List.head?_append] at heq
    cases hhd : q.head? with
    | none => exact hq (List.head?_eq_none_iff.mp hhd)
    | some a =>
      rw [hhd] at heq
      have heq2 : (some a : Option Char) = some '.' := heq
      exact safe_ne_dot_of_startsUD q a hqh hhd (Option.some.inj heq2)
  · rw [Bool.not_eq_true', beq_eq_false_iff_ne]
    intro heq
    rw [List.getLast?_append] at heq
    have hlast : ('.' :: ext).getLast? = ext.getLast? := by
      rw [List.getLast?_cons]
      cases hg : ext.getLast? with
      | none => exact absurd (List.getLast?_eq_none_iff.mp hg) hext
      | some x => rfl
    rw [hlast] at heq
    cases hg : ext.getLast? with
    | none => exact absurd (List.getLast?_eq_none_iff.mp hg) hext
    | some x =>
      rw [hg] at heq
      simp only [Option.or_some, Option.some.injEq] at heq
      subst heq
      exact hdot '.' (List.mem_of_getLast?_eq_some hg) rfl
  · rw [Bool.not_eq_true']
    rw [extAfterLastDot_reassemble q ext hdot]
    cases ext with
    | nil => exact absurd rfl hext
    | cons e es => rfl

theorem processExtPart_cases (part : List Char) (h : hasExtension part = true) :
    ∃ q, processExtPart part = q ++ '.' :: extAfterLastDot part ∧
      sanitizedShape q = true ∧ q ≠ [] := by
  rw [processExtPart, if_pos h]
  by_cases hn : sanitize_part (nameBeforeLastDot part) = []
  · rw [if_pos hn]
    exact ⟨['f', 'i', 'l', 'e'], rfl, by decide, by decide⟩
  · rw [if_neg hn]
    exact ⟨_, rfl, sanitize_part_shape _, hn⟩

theorem processExtPart_reassembled (q ext : List Char) (hq : sanitizedShape q = true)
    (hqne : q ≠ []) (hext : ext ≠ []) (hdot : ∀ c ∈ ext, ¬ c = '.') :
    processExtPart (q ++ '.' :: ext) = q ++ '.' :: ext := by
  have hhe : hasExtension (q ++ '.' :: ext) = true :=
    hasExtension_reassemble q ext hqne (shape_startsUD q hq) hext hdot
  rw [processExtPart, if_pos hhe, nameBeforeLastDot_reassemble q ext hdot,
    extAfterLastDot_reassemble q ext hdot, sanitizedShape_fix q hq, if_neg hqne]

/-! ### The per-component loop -/

theorem processExtPart_good (part : List Char) (hp : ('/' : Char) ∉ part) :
    (∀ c ∈ processExtPart part, c ≠ '/') ∧ startsUD (processExtPart part) = false := by
  by_cases h : hasExtension part = true
  · obtain ⟨q, hq, hshape, hqne⟩ := processExtPart_cases part h
    constructor
    · intro c hc
      rw [hq] at hc
      rcases List.mem_append.mp hc with hcq | hcr
      · exact safe_ne_slash c (shape_all_safe q hshape c hcq)
      · rcases List.mem_cons.mp hcr with heq | hce
        · subst heq; decide
        · intro heq
          subst heq
          exact hp (ext_subset part '/' hce)
    · rw [hq]
      cases q with
      | nil => exact absurd rfl hqne
      | cons a q' =>
        have hsh := shape_startsUD _ hshape
        unfold startsUD at hsh ⊢
        rw [List.cons_append, List.head?_cons]
        rw [List.head?_cons] at hsh
        exact hsh
  · rw [processExtPart, if_neg h]
    constructor
    · intro c hc
      exact safe_ne_slash c (sanitize_part_all_safe part c hc)
    · exact shape_startsUD _ (sanitize_part_shape part)

theorem processExtPart_endsUD (part : List Char)
    (hend : endsUD (processExtPart part) = true) :
    (extAfterLastDot (processExtPart part)).getLast? = some '_' := by
  by_cases h : hasExtension part = true
  · obtain ⟨q, hq, hshape, hqne⟩ := processExtPart_cases part h
    have hext : extAfterLastDot part ≠ [] := (hasExtension_elim part h).2.2.2
    rw [hq] at hend ⊢
    rw [extAfterLastDot_reassemble q _ (ext_no_dot part)]
    unfold endsUD at hend
    have hgl : (q ++ '.' :: extAfterLastDot part).getLast? =
        (extAfterLastDot part).getLast? := by
      have h1 : ('.' :: extAfterLastDot part).getLast? = (extAfterLastDot part).getLast? :=
        getLast?_append_ne_nil ['.'] (extAfterLastDot part) hext
      rw [getLast?_append_ne_nil q _ (List.cons_ne_nil _ _), h1]
    rw [hgl] at hend
    cases hg : (extAfterLastDot part).getLast? with
    | none =>
      rw [hg] at hend
      exact absurd hend (by decide)
    | some x =>
      rw [hg] at hend
      have hend2 : isUD x = true := hend
      rw [isUD] at hend2
      rcases Bool.or_eq_true_iff.mp hend2 with hx | hx
      · rw [show x = '_' from eq_of_beq hx]
      · exact absurd rfl
          (ext_no_dot part '.'
            ((show x = '.' from eq_of_beq hx) ▸ List.mem_of_getLast?_eq_some hg))
  · rw [processExtPart, if_neg h] at hend
    rw [shape_endsUD _ (sanitize_part_shape part)] at hend
    exact absurd hend Bool.false_ne_true

theorem plainPart_eq_some (part q : List Char) (h : plainPart part = some q) :
    q = sanitize_part part ∧ q ≠ [] ∧ part ≠ [] := by
  rw [plainPart] at h
  split_ifs at h with h1 h2
  · have hq := Option.some.inj h
    exact ⟨hq.symm, fun hqq => h2 (hq.trans hqq), h1⟩

theorem processParts_cons_cons (part p2 : List Char) (rest : List (List Char)) :
    processParts (part :: p2 :: rest) =
      (plainPart part).toList ++ processParts (p2 :: rest) := rfl

theorem processParts_mem (ps : List (List Char)) :
    ∀ q ∈ processParts ps,
      sanitizedShape q = true ∨
        ∃ p, ps.getLast? = some p ∧ hasExtension p = true ∧ q = processExtPart p := by
  induction ps with
  | nil => intro q hq; exact absurd hq (List.not_mem_nil q)
  | cons part rest ih =>
    cases rest with
    | nil =>
      intro q hq
      rw [processParts] at hq
      split_ifs at hq with h1 h2
      · exact absurd hq (List.not_mem_nil q)
      · exact absurd hq (List.not_mem_nil q)
      · have hq2 : q = processExtPart part := List.mem_singleton.mp hq
        by_cases hext : hasExtension part = true
        · exact Or.inr ⟨part, rfl, hext, hq2⟩
        · left
          rw [hq2, processExtPart, if_neg hext]
          exact sanitize_part_shape part
    | cons p2 rest' =>
      intro q hq
      rw [processParts_cons_cons] at hq
      rcases List.mem_append.mp hq with h | h
      · left
        cases hpp : plainPart part with
        | none => rw [hpp] at h; exact absurd h (List.not_mem_nil q)
        | some r =>
          rw [hpp] at h
          have hr := (plainPart_eq_some part r hpp).1
          have hqr : q = r := List.mem_singleton.mp h
          rw [hqr, hr]
          exact sanitize_part_shape part
      · rcases ih q h with h1 | ⟨p, hp1, hp2, hp3⟩
        · exact Or.inl h1
        · refine Or.inr ⟨p, ?_, hp2, hp3⟩
          rw [List.getLast?_cons_cons]
          exact hp1

theorem processParts_good (ps : List (List Char))
    (hsf : ∀ p ∈ ps, ('/' : Char) ∉ p) :
    ∀ q ∈ processParts ps, q ≠ [] ∧ (∀ c ∈ q, c ≠ '/') ∧ startsUD q = false := by
  induction ps with
  | nil => intro q hq; exact absurd hq (List.not_mem_nil q)
  | cons part rest ih =>
    cases rest with
    | nil =>
      intro q hq
      rw [processParts] at hq
      split_ifs at hq with h1 h2
      · exact absurd hq (List.not_mem_nil q)
      · exact absurd hq (List.not_mem_nil q)
      · have hq2 : q = processExtPart part := List.mem_singleton.mp hq
        subst hq2
        have hgood := processExtPart_good part (hsf part (List.mem_singleton_self part))
        exact ⟨h2, hgood.1, hgood.2⟩
    | cons p2 rest' =>
      intro q hq
      rw [processParts_cons_cons] at hq
      rcases List.mem_append.mp hq with h | h
      · cases hpp : plainPart part with
        | none => rw [hpp] at h; exact absurd h (List.not_mem_nil q)
        | some r =>
          rw [hpp] at h
          obtain ⟨hr, hrne, -⟩ := plainPart_eq_some part r hpp
          have hqr : q = r := List.mem_singleton.mp h
          subst hqr
          refine ⟨hrne, ?_, ?_⟩
          · intro c hc
            exact safe_ne_slash c (sanitize_part_all_safe part c (hr ▸ hc))
          · rw [hr]
            exact shape_startsUD _ (sanitize_part_shape part)
      · exact ih (fun p hp => hsf p (List.mem_cons_of_mem part hp)) q h

theorem processParts_dropLast_shape (ps : List (List Char)) :
    ∀ q ∈ (processParts ps).dropLast, sanitizedShape q = true := by
  induction ps with
  | nil => intro q hq; exact absurd hq (List.not_mem_nil q)
  | cons part rest ih =>
    cases rest with
    | nil =>
      intro q hq
      rw [processParts] at hq
      split_ifs at hq with h1 h2
      · exact absurd hq (List.not_mem_nil q)
      · exact absurd hq (List.not_mem_nil q)
      · rw [List.dropLast_single] at hq
        exact absurd hq (List.not_mem_nil q)
    | cons p2 rest' =>
      intro q hq
      rw [processParts_cons_cons] at hq
      by_cases hpr : processParts (p2 :: rest') = []
      · rw [hpr, List.append_nil] at hq
        cases hpp : plainPart part with
        | none =>
          rw [hpp] at hq
          exact absurd hq (List.not_mem_nil q)
        | some r =>
          rw [hpp] at hq
          simp only [Option.toList_some, List.dropLast_single] at hq
          exact absurd hq (List.not_mem_nil q)
      · rw [List.dropLast_append_of_ne_nil _ hpr] at hq
        rcases List.mem_append.mp hq with h | h
        · cases hpp : plainPart part with
          | none => rw [hpp] at h; exact absurd h (List.not_mem_nil q)
          | some r =>
            rw [hpp] at h
            obtain ⟨hr, -, -⟩ := plainPart_eq_some part r hpp
            have hqr : q = r := List.mem_singleton.mp h
            rw [hqr, hr]
            exact sanitize_part_shape part
        · exact ih q h

theorem processParts_getLast_of_ext (ps : List (List Char)) (p : List Char)
    (hlast : ps.getLast? = some p) (hp : p ≠ []) (hne : processExtPart p ≠ []) :
    (processParts ps).getLast? = some (processExtPart p) := by
  induction ps with
  | nil => exact Option.noConfusion hlast
  | cons part rest ih =>
    cases rest with
    | nil =>
      have hpp : part = p := by
        rw [List.getLast?_singleton] at hlast
        exact Option.some.inj hlast
      subst hpp
      rw [processParts, if_neg hp, if_neg hne]
      exact List.getLast?_singleton _
    | cons p2 rest' =>
      rw [List.getLast?_cons_cons] at hlast
      have hih := ih hlast
      rw [processParts_cons_cons]
      have hprne : processParts (p2 :: rest') ≠ [] := by
        intro h0
        rw [h0] at hih
        exact Option.noConfusion hih
      rw [getLast?_append_ne_nil _ _ hprne]
      exact hih

theorem processParts_length_le (ps : List (List Char)) :
    (processParts ps).length ≤ (ps.filter (fun p => !p.isEmpty)).length := by
  induction ps with
  | nil => exact Nat.le_refl 0
  | cons part rest ih =>
    cases rest with
    | nil =>
      rw [processParts]
      split_ifs with h1 h2
      · exact Nat.zero_le _
      · exact Nat.zero_le _
      · have hne : (!part.isEmpty) = true := by
          cases part with
          | nil => exact absurd rfl h1
          | cons a l => rfl
        simp [List.filter_cons, hne]
    | cons p2 rest' =>
      rw [processParts_cons_cons, List.length_append, List.filter_cons]
      by_cases h1 : part = []
      · subst h1
        have hnone : plainPart [] = none := rfl
        rw [hnone]
        have hemp : (!([] : List Char).isEmpty) = false := rfl
        rw [hemp]
        simpa using ih
      · have hne : (!part.isEmpty) = true := by
          cases part with
          | nil => exact absurd rfl h1
          | cons a l => rfl
        rw [hne, if_pos rfl]
        have hlen : ((plainPart part).toList).length ≤ 1 := by
          cases plainPart part with
          | none => exact Nat.zero_le 1
          | some r => exact Nat.le_refl 1
        calc ((plainPart part).toList).length + (processParts (p2 :: rest')).length
            ≤ 1 + ((p2 :: rest').filter (fun p => !p.isEmpty)).length :=
              Nat.add_le_add hlen ih
          _ = ((p2 :: rest').filter (fun p => !p.isEmpty)).length + 1 := Nat.add_comm _ _
          _ = (part :: (p2 :: rest').filter (fun p => !p.isEmpty)).length :=
              (List.length_cons _ _).symm

theorem processParts_append_nil (ps : List (List Char)) :
    processParts (ps ++ [[]]) = ps.filterMap plainPart := by
  induction ps with
  | nil => rfl
  | cons part rest ih =>
    cases rest with
    | nil =>
      have hstep : (([part] : List (List Char)) ++ [[]]) = part :: [] :: [] := rfl
      rw [hstep, processParts_cons_cons]
      have hnil : processParts [([] : List Char)] = [] := rfl
      rw [hnil, List.append_nil, List.filterMap_cons]
      cases hpp : plainPart part with
      | none => rfl
      | some r => rfl
    | cons p2 rest' =>
      have hstep : ((part :: p2 :: rest') ++ [[]]) = part :: p2 :: (rest' ++ [[]]) := rfl
      rw [hstep, processParts_cons_cons, List.filterMap_cons]
      have ih' : processParts (p2 :: (rest' ++ [[]])) = (p2 :: rest').filterMap plainPart := by
        rw [show (p2 :: (rest' ++ [[]])) = (p2 :: rest') ++ [[]] from rfl]
        exact ih
      rw [ih']
      cases hpp : plainPart part with
      | none => rfl
      | some r => rfl

/-! ### The top-level function in terms of the loop -/

theorem sanitize_eq_join (s : List Char) :
    sanitize_filename_for_supabase s = joinSlash (processParts (splitOnSlash s)) := by
  by_cases hs : s = []
  · subst hs; rfl
  · rw [sanitize_filename_for_supabase, if_neg hs]
    apply collapseRuns_eq_self
    apply hasRun_slash_joinSlash
    · intro q hq
      exact (processParts_good _ (not_slash_mem_splitOnSlash s) q hq).1
    · intro q hq hmem
      exact (processParts_good _ (not_slash_mem_splitOnSlash s) q hq).2.1 '/' hmem rfl

theorem split_sanitize (s : List Char) :
    splitOnSlash (sanitize_filename_for_supabase s) =
      if processParts (splitOnSlash s) = [] then [[]]
      else processParts (splitOnSlash s) := by
  rw [sanitize_eq_join]
  split_ifs with hpp
  · rw [hpp]; rfl
  · apply splitOnSlash_joinSlash _ hpp
    intro q hq hmem
    exact (processParts_good _ (not_slash_mem_splitOnSlash s) q hq).2.1 '/' hmem rfl

/-! ### Idempotence -/

theorem processParts_fix (ps : List (List Char))
    (hdrop : ∀ q ∈ ps.dropLast, sanitizedShape q = true ∧ q ≠ [])
    (hlast : ∀ q, ps.getLast? = some q → q ≠ [] ∧ processExtPart q = q) :
    processParts ps = ps := by
  induction ps with
  | nil => rfl
  | cons part rest ih =>
    cases rest with
    | nil =>
      obtain ⟨hne, hfix⟩ := hlast part (List.getLast?_singleton part)
      rw [processParts, if_neg hne, if_neg (fun h0 => hne (hfix.symm.trans h0)), hfix]
    | cons p2 rest' =>
      have hmem : part ∈ (part :: p2 :: rest').dropLast := by
        rw [List.dropLast_cons_of_ne_nil (List.cons_ne_nil _ _)]
        exact List.mem_cons_self _ _
      obtain ⟨hsh, hne⟩ := hdrop part hmem
      have hfix := sanitizedShape_fix part hsh
      have hppp : plainPart part = some part := by
        rw [plainPart, if_neg hne, hfix, if_neg hne]
      rw [processParts_cons_cons, hppp]
      have ih' : processParts (p2 :: rest') = p2 :: rest' := by
        apply ih
        · intro q hq
          apply hdrop q
          rw [List.dropLast_cons_of_ne_nil (List.cons_ne_nil _ _)]
          exact List.mem_cons_of_mem part hq
        · intro q hq
          apply hlast q
          rw [List.getLast?_cons_cons]
          exact hq
      rw [ih']
      rfl

theorem sanitize_idem_aux (s : List Char)
    (h : ∀ q, (processParts (splitOnSlash s)).getLast? = some q → processExtPart q = q) :
    sanitize_filename_for_supabase (sanitize_filename_for_supabase s) =
      sanitize_filename_for_supabase s := by
  by_cases hpp : processParts (splitOnSlash s) = []
  · rw [sanitize_eq_join s, hpp]
    rfl
  · have hsplit : splitOnSlash (sanitize_filename_for_supabase s) =
        processParts (splitOnSlash s) := by
      rw [split_sanitize, if_neg hpp]
    have hfix : processParts (processParts (splitOnSlash s)) =
        processParts (splitOnSlash s) := by
      apply processParts_fix
      · intro q hq
        refine ⟨processParts_dropLast_shape _ q hq, ?_⟩
        exact (processParts_good _ (not_slash_mem_splitOnSlash s) q
          ((List.dropLast_sublist _).subset hq)).1
      · intro q hq
        refine ⟨(processParts_good _ (not_slash_mem_splitOnSlash s) q
          (List.mem_of_getLast?_eq_some hq)).1, h q hq⟩
    rw [sanitize_eq_join (sanitize_filename_for_supabase s), hsplit, hfix]
    exact (sanitize_eq_join s).symm

theorem sanitize_idem_of_out_leaf_extfree (s : List Char)
    (h : hasExtension ((splitOnSlash (sanitize_filename_for_supabase s)).getLastD []) =
      false) :
    sanitize_filename_for_supabase (sanitize_filename_for_supabase s) =
      sanitize_filename_for_supabase s := by
  apply sanitize_idem_aux
  intro q hq
  have hppne : processParts (splitOnSlash s) ≠ [] := by
    intro h0
    rw [h0] at hq
    exact Option.noConfusion hq
  have hsplit : splitOnSlash (sanitize_filename_for_supabase s) =
      processParts (splitOnSlash s) := by
    rw [split_sanitize, if_neg hppne]
  rw [hsplit, List.getLastD_eq_getLast?, hq] at h
  have hqext : hasExtension q = false := h
  rcases processParts_mem _ q (List.mem_of_getLast?_eq_some hq) with hsh | ⟨p, hp1, hp2, hp3⟩
  · rw [processExtPart, if_neg (fun h0 => Bool.false_ne_true (hqext ▸ h0))]
    exact sanitizedShape_fix q hsh
  · exfalso
    obtain ⟨q0, hq0, hsh0, hne0⟩ := processExtPart_cases p hp2
    rw [hp3, hq0] at hqext
    rw [hasExtension_reassemble q0 _ hne0 (shape_startsUD _ hsh0)
      ((hasExtension_elim p hp2).2.2.2) (ext_no_dot p)] at hqext
    exact absurd hqext (by decide)

theorem sanitize_idem_of_leaf_ext (s : List Char)
    (h : hasExtension ((splitOnSlash s).getLastD []) = true) :
    sanitize_filename_for_supabase (sanitize_filename_for_supabase s) =
      sanitize_filename_for_supabase s := by
  have hne := splitOnSlash_ne_nil s
  cases hg : (splitOnSlash s).getLast? with
  | none => exact absurd (List.getLast?_eq_none_iff.mp hg) hne
  | some L =>
    have hLD : (splitOnSlash s).getLastD [] = L := by
      rw [List.getLastD_eq_getLast?, hg]
      rfl
    rw [hLD] at h
    have hLne : L ≠ [] := by
      intro h0
      rw [h0] at h
      exact absurd h (by decide)
    obtain ⟨q0, hq0, hsh0, hne0⟩ := processExtPart_cases L h
    have hpene : processExtPart L ≠ [] := by
      rw [hq0]
      simp
    apply sanitize_idem_aux
    intro q hq
    rw [processParts_getLast_of_ext _ L hg hLne hpene] at hq
    have hqe : q = processExtPart L := (Option.some.inj hq).symm
    rw [hqe, hq0]
    exact processExtPart_reassembled q0 _ hsh0 hne0
      ((hasExtension_elim L h).2.2.2) (ext_no_dot L)

/-! ### The claims -/

/-- C1, counterexample: the spec's charset guarantee fails as stated, because the
extension of the final segment is passed through unsanitized: the input
"x.a b" qualifies for extension handling (extension "a b") and sanitizes to
itself, so the output contains a space, a character outside
a-z, A-Z, 0-9, '.', '_', '-', '/'. -/
theorem C1_charset_counterexample :
    sanitize_filename_for_supabase ("x.a b".toList) = "x.a b".toList ∧
    (sanitize_filename_for_supabase ("x.a b".toList)).all
      (fun c => safeChar c || c == '/') = false := by
  decide

/-- C1, amended: every character of the output is in the safe set, or is the
path separator, or occurs in the passed-through extension of the final raw
segment of the input. -/
theorem C1_charset_up_to_extension (s : List Char) :
    (sanitize_filename_for_supabase s).all (fun c =>
      safeChar c || c == '/' ||
        (extAfterLastDot ((splitOnSlash s).getLastD [])).contains c) = true := by
  apply List.all_eq_true.mpr
  intro c hc
  rw [sanitize_eq_join] at hc
  rcases mem_joinSlash _ c hc with heq | ⟨q, hqmem, hcq⟩
  · subst heq
    exact Bool.or_eq_true_iff.mpr (Or.inl (Bool.or_eq_true_iff.mpr (Or.inr rfl)))
  · rcases processParts_mem _ q hqmem with hsh | ⟨p, hp1, hp2, hp3⟩
    · exact Bool.or_eq_true_iff.mpr
        (Or.inl (Bool.or_eq_true_iff.mpr (Or.inl (shape_all_safe q hsh c hcq))))
    · obtain ⟨q0, hq0, hsh0, hne0⟩ := processExtPart_cases p hp2
      rw [hp3, hq0] at hcq
      rcases List.mem_append.mp hcq with h | h
      · exact Bool.or_eq_true_iff.mpr
          (Or.inl (Bool.or_eq_true_iff.mpr (Or.inl (shape_all_safe q0 hsh0 c h))))
      · rcases List.mem_cons.mp h with heq | h
        · subst heq
          exact Bool.or_eq_true_iff.mpr (Or.inl (Bool.or_eq_true_iff.mpr (Or.inl (by decide))))
        · rw [List.getLastD_eq_getLast?, hp1]
          refine Bool.or_eq_true_iff.mpr (Or.inr ?_)
          exact List.contains_iff_exists_mem_beq.mpr ⟨c, h, beq_self_eq_true c⟩

/-- C2, counterexample: the segment-shape invariant fails as stated: the input
"a.b_" qualifies for extension handling (extension "b_", passed through
unchanged), so the single output segment ends with an underscore. -/
theorem C2_segment_shape_counterexample :
    sanitize_filename_for_supabase ("a.b_".toList) = "a.b_".toList ∧
    ((splitOnSlash (sanitize_filename_for_supabase ("a.b_".toList))).getLastD
      []).getLast? = some '_' := by
  decide

/-- C2, amended: the output never contains two consecutive slashes, no segment
of the output starts with an underscore or a dot, no segment other than the
last ends with an underscore or a dot, and when the last segment does end
badly the offending character is the final character of a passed-through
extension (necessarily an underscore). -/
theorem C2_segment_shape (s : List Char) :
    hasRun '/' (sanitize_filename_for_supabase s) = false ∧
    (∀ seg ∈ splitOnSlash (sanitize_filename_for_supabase s), startsUD seg = false) ∧
    (∀ seg ∈ (splitOnSlash (sanitize_filename_for_supabase s)).dropLast,
      endsUD seg = false) ∧
    (∀ seg, (splitOnSlash (sanitize_filename_for_supabase s)).getLast? = some seg →
      endsUD seg = true → (extAfterLastDot seg).getLast? = some '_') := by
  have hgood := processParts_good (splitOnSlash s) (not_slash_mem_splitOnSlash s)
  refine ⟨?_, ?_, ?_, ?_⟩
  · rw [sanitize_eq_join]
    by_cases hpp : processParts (splitOnSlash s) = []
    · rw [hpp]
      rfl
    · exact hasRun_slash_joinSlash _ (fun q hq => (hgood q hq).1)
        (fun q hq hm => (hgood q hq).2.1 '/' hm rfl)
  · intro seg hseg
    rw [split_sanitize] at hseg
    split_ifs at hseg with hpp
    · have hnil : seg = [] := List.mem_singleton.mp hseg
      rw [hnil]
      rfl
    · exact (hgood seg hseg).2.2
  · intro seg hseg
    rw [split_sanitize] at hseg
    split_ifs at hseg with hpp
    · rw [List.dropLast_single] at hseg
      exact absurd hseg (List.not_mem_nil seg)
    · exact shape_endsUD seg (processParts_dropLast_shape _ seg hseg)
  · intro seg hseg hend
    rw [split_sanitize] at hseg
    split_ifs at hseg with hpp
    · have h0 : (([[]] : List (List Char))).getLast? = some [] := rfl
      have hnil : seg = [] := (Option.some.inj (h0.symm.trans hseg)).symm
      rw [hnil] at hend
      exact absurd hend (by decide)
    · rcases processParts_mem _ seg (List.mem_of_getLast?_eq_some hseg) with
        hsh | ⟨p, hp1, hp2, hp3⟩
      · rw [shape_endsUD seg hsh] at hend
        exact absurd hend Bool.false_ne_true
      · rw [hp3] at hend ⊢
        exact processExtPart_endsUD p hend

/-- C2, witness: the amended invariant evaluated on the concrete input "a.b_",
whose single output segment ends with the underscore of its passed-through
extension. -/
theorem C2_segment_shape_witness :
    hasRun '/' (sanitize_filename_for_supabase ("a.b_".toList)) = false ∧
    startsUD ("a.b_".toList) = false ∧
    (extAfterLastDot ("a.b_".toList)).getLast? = some '_' := by
  have h := C2_segment_shape ("a.b_".toList)
  exact ⟨h.1, h.2.1 ("a.b_".toList) (by decide),
    h.2.2.2 ("a.b_".toList) (by decide) (by decide)⟩

/-- C3, counterexample: the input ".wav" does not qualify for extension handling
(it starts with a dot), so the stem fallback is not applied: the whole segment
is sanitized as a name and the leading dot is stripped, giving "wav", not
"file.wav". -/
theorem C3_dotwav_counterexample :
    sanitize_filename_for_supabase (".wav".toList) = "wav".toList ∧
    (("wav".toList : List Char) == "file.wav".toList) = false := by
  decide

/-- C3, amended: when the final raw segment qualifies for extension handling
(contains a dot, does not start or end with a dot, non-empty suffix) and its
name portion sanitizes to the empty string, the leaf of the output is the
literal stem "file" followed by the dot and the passed-through extension;
the input "_.wav" exercises this, while ".wav" does not qualify. -/
theorem C3_stem_fallback (s : List Char)
    (h1 : hasExtension ((splitOnSlash s).getLastD []) = true)
    (h2 : sanitize_part (nameBeforeLastDot ((splitOnSlash s).getLastD [])) = []) :
    (splitOnSlash (sanitize_filename_for_supabase s)).getLastD [] =
      'f' :: 'i' :: 'l' :: 'e' :: '.' ::
        extAfterLastDot ((splitOnSlash s).getLastD []) := by
  have hne := splitOnSlash_ne_nil s
  cases hg : (splitOnSlash s).getLast? with
  | none => exact absurd (List.getLast?_eq_none_iff.mp hg) hne
  | some L =>
    have hLD : (splitOnSlash s).getLastD [] = L := by
      rw [List.getLastD_eq_getLast?, hg]
      rfl
    rw [hLD] at h1 h2 ⊢
    have hLne : L ≠ [] := by
      intro h0
      rw [h0] at h1
      exact absurd h1 (by decide)
    have hpe : processExtPart L =
        'f' :: 'i' :: 'l' :: 'e' :: '.' :: extAfterLastDot L := by
      rw [processExtPart, if_pos h1, if_pos h2]
    have hpene : processExtPart L ≠ [] := by
      rw [hpe]
      exact List.cons_ne_nil _ _
    have hlast := processParts_getLast_of_ext _ L hg hLne hpene
    have hppne : processParts (splitOnSlash s) ≠ [] := by
      intro h0
      rw [h0] at hlast
      exact Option.noConfusion hlast
    rw [split_sanitize, if_neg hppne, List.getLastD_eq_getLast?, hlast, hpe]
    rfl

/-- C3, witness: the amended stem fallback evaluated on the concrete input
"_.wav", which sanitizes to "file.wav". -/
theorem C3_stem_fallback_witness :
    (splitOnSlash (sanitize_filename_for_supabase ("_.wav".toList))).getLastD [] =
      'f' :: 'i' :: 'l' :: 'e' :: '.' ::
        extAfterLastDot ((splitOnSlash ("_.wav".toList)).getLastD []) :=
  C3_stem_fallback ("_.wav".toList) (by decide) (by decide)

/-- C4, counterexample: a trailing slash does change which segment receives
extension handling: "_.wav" sanitizes to "file.wav" (extension path with the
stem fallback), but "_.wav/" sanitizes to "wav", because the last raw segment
of the split is then the empty one and "_.wav" is handled as a plain name. -/
theorem C4_trailing_slash_counterexample :
    sanitize_filename_for_supabase ("_.wav/".toList) = "wav".toList ∧
    sanitize_filename_for_supabase ("_.wav".toList) = "file.wav".toList ∧
    (sanitize_filename_for_supabase ("_.wav/".toList) ==
      sanitize_filename_for_supabase ("_.wav".toList)) = false := by
  decide

/-- C4, amended: extension handling is keyed to the last segment of the raw
split, before empty segments are discarded; consequently, for any input
ending in a slash no non-empty segment is the last raw segment and every
segment is sanitized as a plain name. -/
theorem C4_trailing_slash_no_extension (s : List Char) :
    sanitize_filename_for_supabase (s ++ ['/']) =
      collapseRuns '/' (joinSlash ((splitOnSlash s).filterMap plainPart)) := by
  rw [sanitize_filename_for_supabase, if_neg (by simp), splitOnSlash_append_slash,
    processParts_append_nil]

/-- C5, counterexample: idempotence fails on an input all of whose segments are
extension-free: "a .b." has no genuine extension (it ends with a dot), yet it
sanitizes to "a_.b", whose leaf does carry a genuine extension, and a second
pass gives "a.b". -/
theorem C5_extfree_idem_counterexample :
    (splitOnSlash ("a .b.".toList)).all (fun p => !hasExtension p) = true ∧
    sanitize_filename_for_supabase ("a .b.".toList) = "a_.b".toList ∧
    sanitize_filename_for_supabase
      (sanitize_filename_for_supabase ("a .b.".toList)) = "a.b".toList ∧
    (sanitize_filename_for_supabase (sanitize_filename_for_supabase ("a .b.".toList)) ==
      sanitize_filename_for_supabase ("a .b.".toList)) = false := by
  decide

/-- C5, amended: the function is idempotent on every input whose sanitized
output has an extension-free leaf segment; extension-freeness of the input
segments alone is not sufficient, because the sanitized leaf may acquire a
genuine extension. -/
theorem C5_idempotent_on_extfree_output (s : List Char)
    (h : hasExtension
      ((splitOnSlash (sanitize_filename_for_supabase s)).getLastD []) = false) :
    sanitize_filename_for_supabase (sanitize_filename_for_supabase s) =
      sanitize_filename_for_supabase s :=
  sanitize_idem_of_out_leaf_extfree s h

/-- C5, witness: idempotence on the concrete extension-free input "a b". -/
theorem C5_idempotent_on_extfree_output_witness :
    sanitize_filename_for_supabase (sanitize_filename_for_supabase ("a b".toList)) =
      sanitize_filename_for_supabase ("a b".toList) :=
  C5_idempotent_on_extfree_output ("a b".toList) (by decide)

/-- C6, counterexample: the claim's negation: no input whose final raw segment
carries a genuine extension with characters outside the safe set can refute
idempotence, because a second application of the function changes nothing on
any extension-bearing input, whatever the extension contains. -/
theorem C6_unsafe_ext_counterexample :
    ¬ ∃ s : List Char,
      hasExtension ((splitOnSlash s).getLastD []) = true ∧
      (extAfterLastDot ((splitOnSlash s).getLastD [])).any
        (fun c => !safeChar c) = true ∧
      sanitize_filename_for_supabase (sanitize_filename_for_supabase s) ≠
        sanitize_filename_for_supabase s := by
  rintro ⟨s, h1, -, h3⟩
  exact h3 (sanitize_idem_of_leaf_ext s h1)

/-- C6, amended: the function is indeed not idempotent in general, but the
failures come from inputs whose final raw segment is extension-free and whose
sanitized leaf acquires a genuine extension, such as "a .b.". -/
theorem C6_nonidempotence_exists :
    ∃ s : List Char, hasExtension ((splitOnSlash s).getLastD []) = false ∧
      (sanitize_filename_for_supabase (sanitize_filename_for_supabase s) ==
        sanitize_filename_for_supabase s) = false :=
  ⟨"a .b.".toList, by decide, by decide⟩

/-- C7: diacritic stripping on the two specified Vietnamese examples: the five
a-with-tone-marks letters all strip to a, and the Dyet substitution together
with decomposition maps "Đức" to "Duc". -/
theorem C7_diacritic_stripping :
    sanitize_filename_for_supabase ("áàảãạ".toList) =
      "aaaaa".toList ∧
    sanitize_filename_for_supabase ("Đức".toList) = "Duc".toList := by
  decide

/-- C8, counterexample: a non-empty input segment can disappear from the
output: "###/a" has two non-empty segments but its image "a" has one, because
"###" sanitizes to the empty string and is dropped. -/
theorem C8_segment_count_counterexample :
    sanitize_filename_for_supabase ("###/a".toList) = "a".toList ∧
    ((splitOnSlash ("###/a".toList)).filter (fun p => !p.isEmpty)).length = 2 ∧
    (splitOnSlash (sanitize_filename_for_supabase ("###/a".toList))).length = 1 := by
  decide

/-- C8, amended: the output segments are exactly the per-segment images of the
loop, in input order, so there is at most one output segment per non-empty
input segment; segments that are empty, or whose sanitized form is empty, are
dropped. -/
theorem C8_segment_transform (s : List Char) :
    splitOnSlash (sanitize_filename_for_supabase s) =
      (if processParts (splitOnSlash s) = [] then [[]]
        else processParts (splitOnSlash s)) ∧
    (processParts (splitOnSlash s)).length ≤
      ((splitOnSlash s).filter (fun p => !p.isEmpty)).length :=
  ⟨split_sanitize s, processParts_length_le _⟩

/-- C9: the function is a total function of its input (the embedding is a total
Lean function by construction), and the degenerate inputs all reduce to the
empty output: the empty string, a whitespace-only string, the all-dots string,
a string of only combining marks, and a string of only emoji. -/
theorem C9_total_on_degenerate_inputs :
    sanitize_filename_for_supabase [] = [] ∧
    sanitize_filename_for_supabase ("   ".toList) = [] ∧
    sanitize_filename_for_supabase ("...".toList) = [] ∧
    sanitize_filename_for_supabase [Char.ofNat 0x301, Char.ofNat 0x301] = [] ∧
    sanitize_filename_for_supabase [Char.ofNat 0x1F3B5, Char.ofNat 0x1F3B5] = [] := by
  decide

/-- C10: the output never begins or ends with a slash, and when the output is
non-empty every slash-delimited segment of it is non-empty. -/
theorem C10_no_boundary_slash (s : List Char) :
    ((sanitize_filename_for_supabase s).head? == some '/') = false ∧
    ((sanitize_filename_for_supabase s).getLast? == some '/') = false ∧
    ((sanitize_filename_for_supabase s).isEmpty ||
      (splitOnSlash (sanitize_filename_for_supabase s)).all
        (fun seg => !seg.isEmpty)) = true := by
  have hgood := processParts_good (splitOnSlash s) (not_slash_mem_splitOnSlash s)
  by_cases hpp : processParts (splitOnSlash s) = []
  · have hnil : sanitize_filename_for_supabase s = [] := by
      rw [sanitize_eq_join, hpp]
      rfl
    rw [hnil]
    exact ⟨rfl, rfl, rfl⟩
  · refine ⟨?_, ?_, ?_⟩
    · rw [sanitize_eq_join]
      exact beq_eq_false_iff_ne.mpr (head?_joinSlash_ne_slash _
        (fun q hq => (hgood q hq).1)
        (fun q hq hm => (hgood q hq).2.1 '/' hm rfl))
    · rw [sanitize_eq_join]
      exact beq_eq_false_iff_ne.mpr (getLast?_joinSlash_ne_slash _
        (fun q hq => (hgood q hq).1)
        (fun q hq hm => (hgood q hq).2.1 '/' hm rfl))
    · apply Bool.or_eq_true_iff.mpr
      right
      rw [split_sanitize, if_neg hpp]
      apply List.all_eq_true.mpr
      intro seg hseg
      have hne := (hgood seg hseg).1
      cases seg with
      | nil => exact absurd rfl hne
      | cons a l => rfl


end AudioPipeline
